import Mathlib

set_option maxHeartbeats 1000000

/-!
Verification of the bit-level container library (BitsUtil, BitVec, RankVec,
SVec, WBitsVec, StepCode) against its specification.

Machine 64-bit unsigned integers are modelled as Nat with explicit reduction
modulo 2 ^ 64 at the operations where the C++ code can wrap (left shifts,
bitwise complement).  Word arrays are modelled as total functions from word
index to word value (memory beyond an object is simply unconstrained data);
fresh memory obtained from the allocator is modelled as zero-filled.
-/

namespace itmmti

/-- Two to the sixty-fourth power, the modulus of the machine words. -/
def U64 : Nat := 2 ^ 64

/-- The largest 64-bit value, used by the sources as a sentinel. -/
def UINT64_MAX : Nat := U64 - 1

/-- Left shift reduced modulo 2 ^ 64, as performed by C++ on uint64_t. -/
def shl64 (x k : Nat) : Nat := (x <<< k) % U64

/-- Bitwise complement of a 64-bit value (operand assumed below 2 ^ 64). -/
def not64 (x : Nat) : Nat := x ^^^ UINT64_MAX

/-- A word array: total map from word index to 64-bit word. -/
def Mem : Type := Nat → Nat

/-- Pointwise store into a word array. -/
def mset (m : Mem) (i v : Nat) : Mem := fun j => if j = i then v else m j

/-- Well-formed memory: every word is below 2 ^ 64. -/
def WFmem (m : Mem) : Prop := ∀ i, m i < U64

/-- Bit number p of the bit stream induced by a word array: bit (p mod 64)
of word (p div 64), little endian inside each word (BitsUtil.hpp header). -/
def bitAt (m : Mem) (p : Nat) : Bool := (m (p / 64)).testBit (p % 64)

/-- bits::UINTW_MAX (table TBL_LoSet) and ctcbits::UINTW_MAX: the 64-bit
uint whose w low bits are set, for w in 0..64.  Both source variants agree
with 2 ^ w - 1 on that range (the table itself is external data, modelled
from its documented contents). -/
def UINTW_MAX (w : Nat) : Nat := 2 ^ w - 1

/-- bits::cnt64: population count of a 64-bit word. -/
def cnt64 (x : Nat) : Nat := (List.range 64).countP (fun i => x.testBit i)

/-- Floor base-2 logarithm, structurally recursive on a fuel of 64 halving
steps, which is exact for every 64-bit value (the source uses the hardware
count-leading-zeros on uint64_t). -/
def log2go : Nat → Nat → Nat
  | 0, _ => 0
  | fuel + 1, n => if n ≥ 2 then log2go fuel (n / 2) + 1 else 0

/-- bits::bitSize: number of bits needed to represent a value, where 0 is
said to need one bit. -/
def bitSize (x : Nat) : Nat := if x = 0 then 1 else log2go 64 x + 1

/-- bits::readWBits: read the w bits starting at bit position bitPos, with
mask = UINTW_MAX w supplied by the caller. -/
def readWBits (m : Mem) (bitPos w mask : Nat) : Nat :=
  let idx := bitPos / 64
  let offset := bitPos % 64
  let loBits := 64 - offset
  let ret := m idx >>> offset
  let ret := if loBits < w then ret ||| shl64 (m (idx + 1)) loBits else ret
  ret &&& mask

/-- bits::readWBits_S: single-word fast variant. -/
def readWBits_S (m : Mem) (bitPos mask : Nat) : Nat :=
  (m (bitPos / 64) >>> (bitPos % 64)) &&& mask

/-- bits::writeWBits: write the w-bit value val at bit position bitPos,
preserving the surrounding bits.  mask = UINTW_MAX w. -/
def writeWBits (val : Nat) (m : Mem) (bitPos w mask : Nat) : Mem :=
  let idx := bitPos / 64
  let offset := bitPos % 64
  let loBits := 64 - offset
  let m1 := mset m idx ((m idx &&& not64 (shl64 mask offset)) ||| shl64 val offset)
  if loBits < w then
    mset m1 (idx + 1) ((m1 (idx + 1) &&& not64 (mask >>> loBits)) ||| (val >>> loBits))
  else m1

/-- bits::writeWBits_S: single-word fast variant. -/
def writeWBits_S (val : Nat) (m : Mem) (bitPos mask : Nat) : Mem :=
  mset m (bitPos / 64)
    ((m (bitPos / 64) &&& not64 (shl64 mask (bitPos % 64))) ||| shl64 val (bitPos % 64))

/-! Basic bit-level lemmas about the helpers. -/

theorem U64_eq : U64 = 2 ^ 64 := rfl

/-- log2go with enough fuel computes Nat.log2. -/
theorem log2go_eq_log2 {fuel n : Nat} (h : n < 2 ^ fuel) : log2go fuel n = Nat.log2 n := by
  induction fuel generalizing n with
  | zero =>
    interval_cases n
    simp [log2go, Nat.log2]
  | succ fuel ih =>
    rw [log2go, Nat.log2.eq_def]
    by_cases h2 : n ≥ 2
    · have hlt : n / 2 < 2 ^ fuel := by
        have hp : (2 : Nat) ^ (fuel + 1) = 2 * 2 ^ fuel := by ring
        omega
      rw [if_pos h2, if_pos h2, ih hlt]
    · rw [if_neg h2, if_neg h2]

/-- bitSize agrees with the Nat.log2 characterisation on 64-bit values. -/
theorem bitSize_eq {x : Nat} (hx : x < U64) :
    bitSize x = if x = 0 then 1 else Nat.log2 x + 1 := by
  simp only [bitSize]
  by_cases h : x = 0
  · simp [h]
  · rw [if_neg h, if_neg h, log2go_eq_log2 hx]

theorem bitSize_pos (x : Nat) : 1 ≤ bitSize x := by
  simp only [bitSize]
  by_cases h : x = 0 <;> simp [h]

/-- The defining property of bitSize: x is below 2 ^ bitSize x. -/
theorem lt_two_pow_bitSize {x : Nat} (hx : x < U64) : x < 2 ^ bitSize x := by
  rw [bitSize_eq hx]
  by_cases h : x = 0
  · simp [h]
  · rw [if_neg h]
    exact Nat.lt_log2_self

/-- Minimality: a nonzero x needs at least bitSize x bits. -/
theorem two_pow_bitSize_le {x : Nat} (hx : x < U64) (hx0 : x ≠ 0) :
    2 ^ (bitSize x - 1) ≤ x := by
  rw [bitSize_eq hx, if_neg hx0]
  simpa using Nat.log2_self_le hx0

theorem bitSize_le_64 {x : Nat} (hx : x < U64) : bitSize x ≤ 64 := by
  rw [bitSize_eq hx]
  by_cases h : x = 0
  · simp [h]
  · rw [if_neg h]
    have h2 : Nat.log2 x < 64 := by
      rw [Nat.log2_lt h]
      exact hx
    omega

theorem testBit_shl64 (x k j : Nat) :
    (shl64 x k).testBit j = if j < 64 ∧ k ≤ j then x.testBit (j - k) else false := by
  simp only [shl64, U64, Nat.testBit_mod_two_pow, Nat.testBit_shiftLeft]
  by_cases h1 : j < 64 <;> by_cases h2 : k ≤ j <;> simp [h1, h2]

theorem testBit_UINTW_MAX (w j : Nat) :
    (UINTW_MAX w).testBit j = decide (j < w) := by
  simp [UINTW_MAX, Nat.testBit_two_pow_sub_one]

theorem testBit_not64 {x : Nat} (hx : x < U64) (j : Nat) :
    (not64 x).testBit j = if j < 64 then !(x.testBit j) else false := by
  simp only [not64, UINT64_MAX, U64, Nat.testBit_xor, Nat.testBit_two_pow_sub_one]
  by_cases h : j < 64
  · simp [h, Bool.xor_comm]
  · have hx0 : x < 2 ^ 64 := hx
    have hx' : x < 2 ^ j := lt_of_lt_of_le hx0
      (Nat.pow_le_pow_right (by norm_num) (by omega))
    simp [h, Nat.testBit_eq_false_of_lt hx']

theorem testBit_of_lt_U64 {x : Nat} (hx : x < U64) {j : Nat} (hj : 64 ≤ j) :
    x.testBit j = false := by
  have hx0 : x < 2 ^ 64 := hx
  exact Nat.testBit_eq_false_of_lt
    (lt_of_lt_of_le hx0 (Nat.pow_le_pow_right (by norm_num) hj))

theorem shl64_lt (x k : Nat) : shl64 x k < U64 := by
  have : 0 < U64 := by norm_num [U64]
  exact Nat.mod_lt _ this

theorem not64_lt {x : Nat} (hx : x < U64) : not64 x < U64 := by
  have h : ∀ j, 64 ≤ j → (not64 x).testBit j = false := by
    intro j hj
    rw [testBit_not64 hx]
    simp [Nat.not_lt.mpr hj]
  rw [U64]
  exact Nat.lt_pow_two_of_testBit _ h

theorem land_lt_U64 {x : Nat} (y : Nat) (hx : x < U64) : x &&& y < U64 :=
  lt_of_le_of_lt Nat.and_le_left hx

theorem lor_lt_U64 {x y : Nat} (hx : x < U64) (hy : y < U64) : x ||| y < U64 := by
  rw [U64] at *
  exact Nat.or_lt_two_pow hx hy

theorem shiftRight_le_self (x k : Nat) : x >>> k ≤ x := by
  rw [Nat.shiftRight_eq_div_pow]
  exact Nat.div_le_self _ _

theorem shiftRight_lt_U64 {x : Nat} (k : Nat) (hx : x < U64) : x >>> k < U64 :=
  lt_of_le_of_lt (shiftRight_le_self x k) hx

theorem UINTW_MAX_lt (w : Nat) (hw : w ≤ 64) : UINTW_MAX w < U64 := by
  have : (2 : Nat) ^ w ≤ 2 ^ 64 := Nat.pow_le_pow_right (by norm_num) hw
  simp only [UINTW_MAX, U64]
  omega

theorem mset_same (m : Mem) (i v : Nat) : mset m i v i = v := by
  simp [mset]

theorem mset_other (m : Mem) (i v j : Nat) (h : j ≠ i) : mset m i v j = m j := by
  simp [mset, h]

theorem WFmem_mset {m : Mem} (hm : WFmem m) {i v : Nat} (hv : v < U64) :
    WFmem (mset m i v) := by
  intro j
  by_cases h : j = i
  · simpa [mset, h] using hv
  · simpa [mset, h] using hm j

/-- Bit j of the value read by readWBits is bit (bitPos + j) of the stream,
for j below w; bits at and above w read as zero.  Requires w at most 64 and
mask = UINTW_MAX w, as at every call site. -/
theorem readWBits_testBit {m : Mem} (hm : WFmem m) (bitPos : Nat) {w : Nat}
    (hw : w ≤ 64) (j : Nat) :
    (readWBits m bitPos w (UINTW_MAX w)).testBit j =
      if j < w then bitAt m (bitPos + j) else false := by
  have hofs : bitPos % 64 < 64 := Nat.mod_lt _ (by norm_num)
  simp only [readWBits]
  by_cases hj : j < w
  · have hj64 : j < 64 := lt_of_lt_of_le hj hw
    by_cases hsplit : 64 - bitPos % 64 < w
    · rw [if_pos hsplit]
      rw [Nat.testBit_land, Nat.testBit_lor, Nat.testBit_shiftRight, testBit_shl64,
        testBit_UINTW_MAX]
      by_cases hcase : j < 64 - bitPos % 64
      · have h1 : ¬ (64 - bitPos % 64 ≤ j) := by omega
        have hdiv : (bitPos + j) / 64 = bitPos / 64 := by omega
        have hmod : (bitPos + j) % 64 = bitPos % 64 + j := by omega
        simp [h1, hj, bitAt, hdiv, hmod]
      · have h1 : j < 64 ∧ 64 - bitPos % 64 ≤ j := by omega
        have h2 : (m (bitPos / 64)).testBit (bitPos % 64 + j) = false :=
          testBit_of_lt_U64 (hm _) (by omega)
        have hdiv : (bitPos + j) / 64 = bitPos / 64 + 1 := by omega
        have hmod : (bitPos + j) % 64 = bitPos % 64 + j - 64 := by omega
        have hsub : j - (64 - bitPos % 64) = bitPos % 64 + j - 64 := by omega
        simp [h1, hj, h2, bitAt, hdiv, hmod, hsub]
    · have hdiv : (bitPos + j) / 64 = bitPos / 64 := by omega
      have hmod : (bitPos + j) % 64 = bitPos % 64 + j := by omega
      rw [if_neg hsplit]
      rw [Nat.testBit_land, Nat.testBit_shiftRight, testBit_UINTW_MAX]
      simp [hj, bitAt, hdiv, hmod]
  · rw [Nat.testBit_land, testBit_UINTW_MAX]
    simp [hj]

theorem testBit_ge_w {val w : Nat} (hval : val < 2 ^ w) {i : Nat} (hi : w ≤ i) :
    val.testBit i = false :=
  Nat.testBit_eq_false_of_lt
    (lt_of_lt_of_le hval (Nat.pow_le_pow_right (by norm_num) hi))

/-- The stream after writeWBits: positions in the written region hold the
bits of val, everything else is untouched.  Requires w at most 64, the value
fitting in w bits, and mask = UINTW_MAX w. -/
theorem writeWBits_bitAt {m : Mem} (hm : WFmem m) {val : Nat} (bitPos : Nat)
    {w : Nat} (hw : w ≤ 64) (hval : val < 2 ^ w) (q : Nat) :
    bitAt (writeWBits val m bitPos w (UINTW_MAX w)) q =
      if bitPos ≤ q ∧ q < bitPos + w then val.testBit (q - bitPos)
      else bitAt m q := by
  have hofs : bitPos % 64 < 64 := Nat.mod_lt _ (by norm_num)
  have hvtb : ∀ i, w ≤ i → val.testBit i = false := fun i hi => testBit_ge_w hval hi
  have hword1 : ∀ b, b < 64 →
      (((m (bitPos / 64) &&& not64 (shl64 (UINTW_MAX w) (bitPos % 64))) |||
         shl64 val (bitPos % 64)).testBit b) =
        (if bitPos % 64 ≤ b ∧ b < bitPos % 64 + w then val.testBit (b - bitPos % 64)
         else (m (bitPos / 64)).testBit b) := by
    intro b hb
    have hmlt : shl64 (UINTW_MAX w) (bitPos % 64) < U64 := shl64_lt _ _
    rw [Nat.testBit_lor, Nat.testBit_land, testBit_not64 hmlt, testBit_shl64,
      testBit_shl64, testBit_UINTW_MAX]
    by_cases h1 : bitPos % 64 ≤ b ∧ b < bitPos % 64 + w
    · have h3 : b - bitPos % 64 < w := by omega
      simp [h1, h1.1, h1.2, hb, h3]
    · by_cases h4 : bitPos % 64 ≤ b
      · have h5 : ¬ (b - bitPos % 64 < w) := by omega
        have h6 : val.testBit (b - bitPos % 64) = false := hvtb _ (by omega)
        have h7 : ¬ (b < bitPos % 64 + w) := by omega
        simp [h7, hb, h4, h5, h6]
      · simp [h1, hb, h4]
  by_cases hsplit : 64 - bitPos % 64 < w
  · have hword2 : ∀ b, b < 64 →
        ((((m (bitPos / 64 + 1)) &&& not64 (UINTW_MAX w >>> (64 - bitPos % 64))) |||
            (val >>> (64 - bitPos % 64))).testBit b) =
          (if b < w - (64 - bitPos % 64) then val.testBit (64 - bitPos % 64 + b)
           else (m (bitPos / 64 + 1)).testBit b) := by
      intro b hb
      have hsh : UINTW_MAX w >>> (64 - bitPos % 64) < U64 :=
        shiftRight_lt_U64 _ (UINTW_MAX_lt w hw)
      rw [Nat.testBit_lor, Nat.testBit_land, testBit_not64 hsh,
        Nat.testBit_shiftRight, Nat.testBit_shiftRight, testBit_UINTW_MAX]
      by_cases h1 : b < w - (64 - bitPos % 64)
      · have h2 : 64 - bitPos % 64 + b < w := by omega
        simp [h1, h2, hb]
      · have h2 : ¬ (64 - bitPos % 64 + b < w) := by omega
        have h6 : val.testBit (64 - bitPos % 64 + b) = false := hvtb _ (by omega)
        simp [h1, h2, hb, h6]
    simp only [writeWBits, hsplit, if_true, bitAt]
    rw [mset_other m _ _ (bitPos / 64 + 1) (by omega)]
    by_cases hcase : q / 64 = bitPos / 64
    · rw [hcase]
      rw [mset_other _ _ _ _ (by omega : (bitPos / 64 : Nat) ≠ bitPos / 64 + 1),
        mset_same]
      rw [hword1 (q % 64) (Nat.mod_lt _ (by norm_num))]
      by_cases h : bitPos ≤ q ∧ q < bitPos + w
      · have h2 : bitPos % 64 ≤ q % 64 ∧ q % 64 < bitPos % 64 + w := by omega
        have h3 : q % 64 - bitPos % 64 = q - bitPos := by omega
        simp [h, h2, h3]
      · have h2 : ¬ (bitPos % 64 ≤ q % 64 ∧ q % 64 < bitPos % 64 + w) := by omega
        simp [h, h2]
    · by_cases hcase2 : q / 64 = bitPos / 64 + 1
      · rw [hcase2, mset_same, hword2 (q % 64) (Nat.mod_lt _ (by norm_num))]
        by_cases h : bitPos ≤ q ∧ q < bitPos + w
        · have h2 : q % 64 < w - (64 - bitPos % 64) := by omega
          have h3 : 64 - bitPos % 64 + q % 64 = q - bitPos := by omega
          simp [h, h2, h3]
        · have h2 : ¬ (q % 64 < w - (64 - bitPos % 64)) := by omega
          simp [h, h2]
      · have hnot : ¬ (bitPos ≤ q ∧ q < bitPos + w) := by omega
        rw [mset_other _ _ _ _ hcase2, mset_other _ _ _ _ hcase]
        simp [hnot]
  · simp only [writeWBits, hsplit, if_false, bitAt]
    by_cases hcase : q / 64 = bitPos / 64
    · rw [hcase, mset_same]
      rw [hword1 (q % 64) (Nat.mod_lt _ (by norm_num))]
      by_cases h : bitPos ≤ q ∧ q < bitPos + w
      · have h2 : bitPos % 64 ≤ q % 64 ∧ q % 64 < bitPos % 64 + w := by omega
        have h3 : q % 64 - bitPos % 64 = q - bitPos := by omega
        simp [h, h2, h3]
      · have h2 : ¬ (bitPos % 64 ≤ q % 64 ∧ q % 64 < bitPos % 64 + w) := by omega
        simp [h, h2]
    · have hnot : ¬ (bitPos ≤ q ∧ q < bitPos + w) := by omega
      rw [mset_other _ _ _ _ hcase]
      simp [hnot]

theorem writeWBits_WF {m : Mem} (hm : WFmem m) (val bitPos w mask : Nat)
    (hval : val < U64) : WFmem (writeWBits val m bitPos w mask) := by
  simp only [writeWBits]
  by_cases h : 64 - bitPos % 64 < w
  · rw [if_pos h]
    refine WFmem_mset (WFmem_mset hm ?_) ?_
    · exact lor_lt_U64 (land_lt_U64 _ (hm _)) (shl64_lt _ _)
    · refine lor_lt_U64 (land_lt_U64 _ ?_) (shiftRight_lt_U64 _ hval)
      exact WFmem_mset hm (lor_lt_U64 (land_lt_U64 _ (hm _)) (shl64_lt _ _)) _
  · rw [if_neg h]
    exact WFmem_mset hm (lor_lt_U64 (land_lt_U64 _ (hm _)) (shl64_lt _ _))

theorem readWBits_lt (m : Mem) (bitPos w : Nat) (hw : w ≤ 64) :
    readWBits m bitPos w (UINTW_MAX w) < 2 ^ w := by
  have h1 : readWBits m bitPos w (UINTW_MAX w) ≤ UINTW_MAX w := by
    simp only [readWBits]
    exact Nat.and_le_right
  have h2 : UINTW_MAX w < 2 ^ w := by
    simp only [UINTW_MAX]
    have : (0 : Nat) < 2 ^ w := Nat.pos_pow_of_pos _ (by norm_num)
    omega
  omega

/-- If the w stream bits starting at bitPos spell out the value v, then
readWBits returns exactly v. -/
theorem readWBits_eq_of_bits {m : Mem} (hm : WFmem m) (bitPos : Nat) {w v : Nat}
    (hw : w ≤ 64) (hv : v < 2 ^ w)
    (hbits : ∀ j, j < w → bitAt m (bitPos + j) = v.testBit j) :
    readWBits m bitPos w (UINTW_MAX w) = v := by
  apply Nat.eq_of_testBit_eq
  intro j
  rw [readWBits_testBit hm bitPos hw j]
  by_cases hj : j < w
  · simp [hj, hbits j hj]
  · have hz : v.testBit j = false := testBit_ge_w hv (Nat.le_of_not_lt hj)
    simp [hj, hz]

/-- Read after write at the same position returns the written value. -/
theorem readWBits_writeWBits {m : Mem} (hm : WFmem m) (bitPos : Nat) {w val : Nat}
    (hw : w ≤ 64) (hval : val < 2 ^ w) :
    readWBits (writeWBits val m bitPos w (UINTW_MAX w)) bitPos w (UINTW_MAX w) = val := by
  have hWF : WFmem (writeWBits val m bitPos w (UINTW_MAX w)) :=
    writeWBits_WF hm _ _ _ _ (lt_of_lt_of_le hval (Nat.pow_le_pow_right (by norm_num) hw))
  refine readWBits_eq_of_bits hWF bitPos hw hval (fun j hj => ?_)
  rw [writeWBits_bitAt hm bitPos hw hval]
  have h : bitPos ≤ bitPos + j ∧ bitPos + j < bitPos + w := by omega
  simp [h]

/-- The value read depends only on the stream bits of the region. -/
theorem readWBits_congr {m1 m2 : Mem} (h1 : WFmem m1) (h2 : WFmem m2)
    (bitPos : Nat) {w : Nat} (hw : w ≤ 64)
    (hbits : ∀ j, j < w → bitAt m1 (bitPos + j) = bitAt m2 (bitPos + j)) :
    readWBits m1 bitPos w (UINTW_MAX w) = readWBits m2 bitPos w (UINTW_MAX w) := by
  apply Nat.eq_of_testBit_eq
  intro j
  rw [readWBits_testBit h1 bitPos hw j, readWBits_testBit h2 bitPos hw j]
  by_cases hj : j < w
  · simp [hj, hbits j hj]
  · simp [hj]

/-- The single-word read agrees with the general read when the region fits
in one word, which is the documented precondition of readWBits_S. -/
theorem readWBits_S_eq {m : Mem} (bitPos : Nat) {w : Nat}
    (hfit : bitPos % 64 + w ≤ 64) :
    readWBits_S m bitPos (UINTW_MAX w) = readWBits m bitPos w (UINTW_MAX w) := by
  have h : ¬ (64 - bitPos % 64 < w) := by omega
  simp only [readWBits_S, readWBits, h, if_false]

/-- The single-word write agrees with the general write when the region fits
in one word, which is the documented precondition of writeWBits_S. -/
theorem writeWBits_S_eq (val : Nat) {m : Mem} (bitPos : Nat) {w : Nat}
    (hfit : bitPos % 64 + w ≤ 64) :
    writeWBits_S val m bitPos (UINTW_MAX w) = writeWBits val m bitPos w (UINTW_MAX w) := by
  have h : ¬ (64 - bitPos % 64 < w) := by omega
  simp only [writeWBits_S, writeWBits, h, if_false]

/-! Population counts.  bits::cnt_1 and bits::cnt_0 count set and unset bits
inside the region from bit 64 i up to and including bit 64 i + bitPos. -/

/-- Number of set bits of the stream in the region of len bits starting at a. -/
def onesIn (m : Mem) (a len : Nat) : Nat :=
  (List.range len).countP (fun k => bitAt m (a + k))

/-- Loop of bits::cnt_1: the while loop runs exactly bitPos / 64 times,
which the wrapper passes as the structural recursion depth. -/
def cnt_1_go (m : Mem) : Nat → Nat → Nat → Nat
  | 0, i, bitPos => cnt64 (m i &&& UINTW_MAX (bitPos + 1))
  | k + 1, i, bitPos => cnt64 (m i) + cnt_1_go m k (i + 1) (bitPos - 64)

/-- bits::cnt_1. -/
def cnt_1 (m : Mem) (i bitPos : Nat) : Nat := cnt_1_go m (bitPos / 64) i bitPos

/-- Loop of bits::cnt_0, structured like cnt_1_go. -/
def cnt_0_go (m : Mem) : Nat → Nat → Nat → Nat
  | 0, i, bitPos => cnt64 (not64 (m i) &&& UINTW_MAX (bitPos + 1))
  | k + 1, i, bitPos => cnt64 (not64 (m i)) + cnt_0_go m k (i + 1) (bitPos - 64)

/-- bits::cnt_0. -/
def cnt_0 (m : Mem) (i bitPos : Nat) : Nat := cnt_0_go m (bitPos / 64) i bitPos

theorem countP_range_congr {n : Nat} {p q : Nat → Bool}
    (h : ∀ x, x < n → p x = q x) :
    (List.range n).countP p = (List.range n).countP q :=
  List.countP_congr (fun x hx => by rw [h x (List.mem_range.mp hx)])

/-- Counting a predicate over range n, where the predicate is cut off above c,
equals counting over range c. -/
theorem countP_range_cut {c n : Nat} (hc : c ≤ n) (p : Nat → Bool) :
    (List.range n).countP (fun k => decide (k < c) && p k) =
      (List.range c).countP p := by
  have h : n = c + (n - c) := by omega
  rw [h, List.range_add, List.countP_append, List.countP_map]
  have h1 : (List.range c).countP (fun k => decide (k < c) && p k) =
      (List.range c).countP p := by
    apply countP_range_congr
    intro x hx
    simp [hx]
  have h2 : (List.range (n - c)).countP ((fun k => decide (k < c) && p k) ∘ (c + ·)) = 0 := by
    rw [List.countP_eq_zero]
    intro a _
    simp only [Function.comp]
    simp
  rw [h1, h2]
  omega

theorem onesIn_split (m : Mem) (a len1 len2 : Nat) :
    onesIn m a (len1 + len2) = onesIn m a len1 + onesIn m (a + len1) len2 := by
  simp only [onesIn]
  rw [List.range_add, List.countP_append, List.countP_map]
  congr 1
  apply List.countP_congr
  intro x _
  simp only [Function.comp]
  rw [show a + (len1 + x) = a + len1 + x by omega]

theorem onesIn_congr {m1 m2 : Mem} (a len : Nat)
    (h : ∀ j, j < len → bitAt m1 (a + j) = bitAt m2 (a + j)) :
    onesIn m1 a len = onesIn m2 a len :=
  countP_range_congr (fun x hx => h x hx)

theorem cnt64_eq_onesIn (m : Mem) (i : Nat) : cnt64 (m i) = onesIn m (64 * i) 64 := by
  simp only [cnt64, onesIn]
  apply countP_range_congr
  intro x hx
  simp only [bitAt]
  have hdiv : (64 * i + x) / 64 = i := by omega
  have hmod : (64 * i + x) % 64 = x := by omega
  rw [hdiv, hmod]

theorem cnt64_land_UINTW_MAX (m : Mem) (i c : Nat) (hc : c ≤ 64) :
    cnt64 (m i &&& UINTW_MAX c) = onesIn m (64 * i) c := by
  simp only [cnt64, onesIn]
  have hsub : (List.range 64).countP (fun k => (m i &&& UINTW_MAX c).testBit k) =
      (List.range 64).countP (fun k => decide (k < c) && (m i).testBit k) := by
    apply countP_range_congr
    intro x _
    simp [Nat.testBit_land, testBit_UINTW_MAX, Bool.and_comm]
  rw [hsub, countP_range_cut hc]
  apply countP_range_congr
  intro x hx
  simp only [bitAt]
  have hdiv : (64 * i + x) / 64 = i := by omega
  have hmod : (64 * i + x) % 64 = x := by omega
  rw [hdiv, hmod]

/-- cnt_1 counts the set bits of the stream region from 64 i through
64 i + bitPos, inclusive. -/
theorem cnt_1_go_spec (m : Mem) (k i bitPos : Nat) (hk : bitPos / 64 = k) :
    cnt_1_go m k i bitPos = onesIn m (64 * i) (bitPos + 1) := by
  induction k generalizing i bitPos with
  | zero =>
    rw [cnt_1_go, cnt64_land_UINTW_MAX m i (bitPos + 1) (by omega)]
  | succ k ih =>
    rw [cnt_1_go, ih (i + 1) (bitPos - 64) (by omega)]
    have hsplit : onesIn m (64 * i) (bitPos + 1) =
        onesIn m (64 * i) 64 + onesIn m (64 * i + 64) (bitPos - 64 + 1) := by
      rw [show bitPos + 1 = 64 + (bitPos - 64 + 1) by omega, onesIn_split]
    rw [hsplit, cnt64_eq_onesIn]
    have he : 64 * (i + 1) = 64 * i + 64 := by ring
    rw [he]

theorem cnt_1_spec (m : Mem) (i bitPos : Nat) :
    cnt_1 m i bitPos = onesIn m (64 * i) (bitPos + 1) :=
  cnt_1_go_spec m (bitPos / 64) i bitPos rfl

theorem not64_testBit_low {m : Mem} (hm : WFmem m) (i x : Nat) (hx : x < 64) :
    (not64 (m i)).testBit x = !(m i).testBit x := by
  rw [testBit_not64 (hm i)]
  simp [hx]

/-- Number of unset bits of the stream in the region of len bits starting at a. -/
def zerosIn (m : Mem) (a len : Nat) : Nat :=
  (List.range len).countP (fun k => !(bitAt m (a + k)))

theorem zerosIn_split (m : Mem) (a len1 len2 : Nat) :
    zerosIn m a (len1 + len2) = zerosIn m a len1 + zerosIn m (a + len1) len2 := by
  simp only [zerosIn]
  rw [List.range_add, List.countP_append, List.countP_map]
  congr 1
  apply List.countP_congr
  intro x _
  simp only [Function.comp]
  rw [show a + len1 + x = a + (len1 + x) by omega]

theorem onesIn_add_zerosIn (m : Mem) (a len : Nat) :
    onesIn m a len + zerosIn m a len = len := by
  simp only [onesIn, zerosIn]
  rw [List.countP_eq_length_filter, List.countP_eq_length_filter]
  have h := (List.length_eq_length_filter_add (l := List.range len)
    (fun k => bitAt m (a + k))).symm
  rw [List.length_range] at h
  exact h

/-- cnt_0 counts the unset bits of the stream region from 64 i through
64 i + bitPos, inclusive. -/
theorem cnt_0_go_spec {m : Mem} (hm : WFmem m) (k i bitPos : Nat) (hk : bitPos / 64 = k) :
    cnt_0_go m k i bitPos = zerosIn m (64 * i) (bitPos + 1) := by
  have hword : ∀ j, cnt64 (not64 (m j)) = zerosIn m (64 * j) 64 := by
    intro j
    simp only [cnt64, zerosIn]
    apply countP_range_congr
    intro x hx
    rw [not64_testBit_low hm j x hx]
    simp only [bitAt]
    have hdiv : (64 * j + x) / 64 = j := by omega
    have hmod : (64 * j + x) % 64 = x := by omega
    rw [hdiv, hmod]
  induction k generalizing i bitPos with
  | zero =>
    rw [cnt_0_go]
    simp only [cnt64, zerosIn]
    have hsub : (List.range 64).countP (fun k => (not64 (m i) &&& UINTW_MAX (bitPos + 1)).testBit k) =
        (List.range 64).countP (fun k => decide (k < bitPos + 1) && !(m i).testBit k) := by
      apply countP_range_congr
      intro x hx
      rw [Nat.testBit_land, testBit_UINTW_MAX, not64_testBit_low hm i x hx,
        Bool.and_comm]
    rw [hsub, countP_range_cut (by omega)]
    apply countP_range_congr
    intro x hx
    simp only [bitAt]
    have hdiv : (64 * i + x) / 64 = i := by omega
    have hmod : (64 * i + x) % 64 = x := by omega
    rw [hdiv, hmod]
  | succ k ih =>
    rw [cnt_0_go, ih (i + 1) (bitPos - 64) (by omega)]
    have hsplit : zerosIn m (64 * i) (bitPos + 1) =
        zerosIn m (64 * i) 64 + zerosIn m (64 * i + 64) (bitPos - 64 + 1) := by
      rw [show bitPos + 1 = 64 + (bitPos - 64 + 1) by omega, zerosIn_split]
    rw [hsplit, hword]
    have he : 64 * (i + 1) = 64 * i + 64 := by ring
    rw [he]

theorem cnt_0_spec {m : Mem} (hm : WFmem m) (i bitPos : Nat) :
    cnt_0 m i bitPos = zerosIn m (64 * i) (bitPos + 1) :=
  cnt_0_go_spec hm (bitPos / 64) i bitPos rfl

end itmmti

namespace itmmti

/-! The four region-move kernels of BitsUtil.hpp and the mvBits dispatcher.
Source and target live in one shared word array (function) so that the
overlapping, aliased calls of the C++ template are modelled exactly; a call
with physically distinct arrays corresponds to disjoint regions of the one
array.  The goto-based loops of the source become tail recursions on the
remaining bit length. -/

/-- Final masked store shared by the left-to-right kernels (label last). -/
def mvLR_last (m : Mem) (tgt_i val bitLen : Nat) : Mem :=
  mset m tgt_i ((m tgt_i &&& not64 (UINTW_MAX bitLen)) ||| (val &&& UINTW_MAX bitLen))

/-- Loop of bits::mvBitsLR_DiffOffs.  The while loop consumes 64 bits of
bitLen per iteration; fuel is an upper bound on the iteration count (the
wrapper passes bitLen itself, which always suffices) making the recursion
structural.  With fuel exhausted the loop guard is necessarily false. -/
def mvLRD_loop (diff1 diff2 : Nat) : Nat → Mem → Nat → Nat → Nat → Nat → Mem
  | 0, m, _, tgt_i, val, bitLen => mvLR_last m tgt_i val bitLen
  | fuel + 1, m, src_i, tgt_i, val, bitLen =>
    if bitLen > 64 then
      let m1 := mset m tgt_i val
      let val1 := m1 src_i >>> diff1
      if bitLen - 64 ≤ diff2 then mvLR_last m1 (tgt_i + 1) val1 (bitLen - 64)
      else mvLRD_loop diff1 diff2 fuel m1 (src_i + 1) (tgt_i + 1)
        (val1 ||| shl64 (m1 (src_i + 1)) diff2) (bitLen - 64)
    else mvLR_last m tgt_i val bitLen

/-- bits::mvBitsLR_DiffOffs. -/
def mvBitsLR_DiffOffs (m : Mem) (srcBitPos tgtBitPos bitLen : Nat) : Mem :=
  let src_i := srcBitPos / 64
  let tgt_i := tgtBitPos / 64
  let srcOffset := srcBitPos % 64
  let tgtOffset := tgtBitPos % 64
  let val := shl64 (m src_i >>> srcOffset) tgtOffset ||| (m tgt_i &&& UINTW_MAX tgtOffset)
  let bitLen1 := bitLen + tgtOffset
  if srcOffset > tgtOffset then
    let diff1 := srcOffset - tgtOffset
    let diff2 := 64 - diff1
    if bitLen1 ≤ diff2 then mvLR_last m tgt_i val bitLen1
    else mvLRD_loop diff1 diff2 bitLen1 m (src_i + 1) tgt_i
      (val ||| shl64 (m (src_i + 1)) diff2) bitLen1
  else
    let diff2 := tgtOffset - srcOffset
    let diff1 := 64 - diff2
    mvLRD_loop diff1 diff2 bitLen1 m src_i tgt_i val bitLen1

/-- Loop of bits::mvBitsLR_SameOffs, fuel-structured like mvLRD_loop. -/
def mvLRS_loop : Nat → Mem → Nat → Nat → Nat → Nat → Mem
  | 0, m, _, tgt_i, val, bitLen => mvLR_last m tgt_i val bitLen
  | fuel + 1, m, src_i, tgt_i, val, bitLen =>
    if bitLen > 64 then
      mvLRS_loop fuel (mset m tgt_i val) (src_i + 1) (tgt_i + 1)
        (mset m tgt_i val (src_i + 1)) (bitLen - 64)
    else mvLR_last m tgt_i val bitLen

/-- bits::mvBitsLR_SameOffs. -/
def mvBitsLR_SameOffs (m : Mem) (srcBitPos tgtBitPos bitLen : Nat) : Mem :=
  let src_i := srcBitPos / 64
  let tgt_i := tgtBitPos / 64
  let offset := srcBitPos % 64
  let mask1 := UINTW_MAX offset
  let val := (m tgt_i &&& mask1) ||| (m src_i &&& not64 mask1)
  mvLRS_loop (bitLen + offset) m src_i tgt_i val (bitLen + offset)

/-- Final masked store shared by the right-to-left kernels (label last). -/
def mvRL_last (m : Mem) (tgt_i val bitLen : Nat) : Mem :=
  mset m tgt_i ((m tgt_i &&& UINTW_MAX (64 - bitLen)) ||| (val &&& not64 (UINTW_MAX (64 - bitLen))))

/-- Loop of bits::mvBitsRL_DiffOffs, fuel-structured like mvLRD_loop. -/
def mvRLD_loop (diff1 diff2 : Nat) : Nat → Mem → Nat → Nat → Nat → Nat → Mem
  | 0, m, _, tgt_i, val, bitLen => mvRL_last m tgt_i val bitLen
  | fuel + 1, m, src_i, tgt_i, val, bitLen =>
    if bitLen > 64 then
      let m1 := mset m tgt_i val
      let val1 := shl64 (m1 src_i) diff1
      if bitLen - 64 ≤ diff2 then mvRL_last m1 (tgt_i - 1) val1 (bitLen - 64)
      else mvRLD_loop diff1 diff2 fuel m1 (src_i - 1) (tgt_i - 1)
        (val1 ||| (m1 (src_i - 1) >>> diff2)) (bitLen - 64)
    else mvRL_last m tgt_i val bitLen

/-- bits::mvBitsRL_DiffOffs. -/
def mvBitsRL_DiffOffs (m : Mem) (srcBitPos tgtBitPos bitLen : Nat) : Mem :=
  let src_i0 := srcBitPos / 64
  let tgt_i0 := tgtBitPos / 64
  let srcOffset0 := srcBitPos % 64
  let tgtOffset0 := tgtBitPos % 64
  -- offset-zero normalisation of the source
  let src_i := if srcOffset0 = 0 then src_i0 - 1 else src_i0
  let srcOffset := if srcOffset0 = 0 then 64 else srcOffset0
  let tgt_i := if srcOffset0 ≠ 0 ∧ tgtOffset0 = 0 then tgt_i0 - 1 else tgt_i0
  let tgtOffset := if srcOffset0 ≠ 0 ∧ tgtOffset0 = 0 then 64 else tgtOffset0
  let val := m tgt_i &&& not64 (UINTW_MAX tgtOffset)
  let bitLen1 := bitLen + (64 - tgtOffset)
  if srcOffset > tgtOffset then
    let diff2 := srcOffset - tgtOffset
    let diff1 := 64 - diff2
    mvRLD_loop diff1 diff2 bitLen1 m src_i tgt_i
      (val ||| ((m src_i &&& UINTW_MAX srcOffset) >>> diff2)) bitLen1
  else
    let diff1 := tgtOffset - srcOffset
    let diff2 := 64 - diff1
    let val1 := val ||| shl64 (m src_i &&& UINTW_MAX srcOffset) diff1
    if bitLen1 ≤ diff2 then mvRL_last m tgt_i val1 bitLen1
    else mvRLD_loop diff1 diff2 bitLen1 m (src_i - 1) tgt_i
      (val1 ||| (m (src_i - 1) >>> diff2)) bitLen1

/-- Loop of bits::mvBitsRL_SameOffs, fuel-structured like mvLRD_loop. -/
def mvRLS_loop : Nat → Mem → Nat → Nat → Nat → Nat → Mem
  | 0, m, _, tgt_i, val, bitLen => mvRL_last m tgt_i val bitLen
  | fuel + 1, m, src_i, tgt_i, val, bitLen =>
    if bitLen > 64 then
      mvRLS_loop fuel (mset m tgt_i val) (src_i - 1) (tgt_i - 1)
        (mset m tgt_i val (src_i - 1)) (bitLen - 64)
    else mvRL_last m tgt_i val bitLen

/-- bits::mvBitsRL_SameOffs. -/
def mvBitsRL_SameOffs (m : Mem) (srcBitPos tgtBitPos bitLen : Nat) : Mem :=
  let src_i0 := srcBitPos / 64
  let tgt_i0 := tgtBitPos / 64
  let offset0 := srcBitPos % 64
  let src_i := if offset0 = 0 then src_i0 - 1 else src_i0
  let tgt_i := if offset0 = 0 then tgt_i0 - 1 else tgt_i0
  let offset := if offset0 = 0 then 64 else offset0
  let mask1 := UINTW_MAX offset
  let val := (m src_i &&& mask1) ||| (m tgt_i &&& not64 mask1)
  mvRLS_loop (bitLen + (64 - offset)) m src_i tgt_i val (bitLen + (64 - offset))

/-- bits::mvBitsLR. -/
def mvBitsLR (m : Mem) (srcBitPos tgtBitPos bitLen : Nat) : Mem :=
  if srcBitPos % 64 ≠ tgtBitPos % 64 then mvBitsLR_DiffOffs m srcBitPos tgtBitPos bitLen
  else mvBitsLR_SameOffs m srcBitPos tgtBitPos bitLen

/-- bits::mvBitsRL. -/
def mvBitsRL (m : Mem) (srcBitPos tgtBitPos bitLen : Nat) : Mem :=
  if srcBitPos % 64 ≠ tgtBitPos % 64 then mvBitsRL_DiffOffs m srcBitPos tgtBitPos bitLen
  else mvBitsRL_SameOffs m srcBitPos tgtBitPos bitLen

/-- bits::mvBits: dispatch on direction, then on offset equality. -/
def mvBits (m : Mem) (srcBitPos tgtBitPos bitLen : Nat) : Mem :=
  if srcBitPos ≥ tgtBitPos then mvBitsLR m srcBitPos tgtBitPos bitLen
  else mvBitsRL m (srcBitPos + bitLen) (tgtBitPos + bitLen) bitLen

/-- The spec-side reference semantics of a region move: a bit-by-bit copy
reading every source bit from the original array.  Bit q of the result is
the original source bit for q inside the target region and the original
bit q everywhere else. -/
def mvBitsRefBit (m : Mem) (srcBitPos tgtBitPos bitLen q : Nat) : Bool :=
  if tgtBitPos ≤ q ∧ q < tgtBitPos + bitLen then bitAt m (srcBitPos + (q - tgtBitPos))
  else bitAt m q

end itmmti

namespace itmmti

/-- The two-word array of the mvBits overlap-left scenario: word 0 holds
0xAAAAAAAAAAAAAAAA, word 1 holds 0. -/
def wordsC9 : Mem := fun i => if i = 0 then 0xAAAAAAAAAAAAAAAA else 0

/-- C9, counterexample: the claim as stated is false on the code.  After
mvBits(words, 0, words, 4, 60) the low 4 bits of words[1] are 0, not 0xA:
the 60-bit target region is bits 4..63, which lies entirely inside word 0,
so word 1 is never touched. -/
theorem C9_counterexample :
    ¬ ((mvBits wordsC9 0 4 60) 0 = 0xAAAAAAAAAAAAAAAA ∧
       (mvBits wordsC9 0 4 60) 1 &&& 0xF = 0xA) := by
  decide

/-- C9 (amended): starting from words = [0xAAAAAAAAAAAAAAAA, 0x0], the call
mvBits(src=words, srcOff=0, tgt=words, tgtOff=4, bitLen=60) leaves words[0]
equal to 0xAAAAAAAAAAAAAAAA and leaves words[1] unchanged at 0 (the target
region ends at bit 64, so no bit of words[1] belongs to it). -/
theorem C9_amended :
    (mvBits wordsC9 0 4 60) 0 = 0xAAAAAAAAAAAAAAAA ∧
    (mvBits wordsC9 0 4 60) 1 = 0 := by
  constructor
  · decide
  · decide

end itmmti

namespace itmmti

/-! StepCode (StepCode.hpp).  wCodes_ and vals_ are word arrays; size and
bitSize are the element count and the bit length of the value payload.
Capacity checks are assertions in the source and are reflected as
hypotheses of the theorems. -/

/-- StepCodeUtil::calcWCode. -/
def calcWCode (val : Nat) : Nat := (bitSize val - 1) / 4

/-- StepCodeUtil::calcSteppedW. -/
def calcSteppedW (val : Nat) : Nat := (bitSize val + 3) / 4 * 4

/-- StepCodeUtil::readW: width of the idx-th value from its packed 4-bit
code. -/
def readW (wCodes : Mem) (idx : Nat) : Nat :=
  4 * (readWBits_S wCodes (4 * idx) (UINTW_MAX 4) + 1)

/-- StepCodeUtil::writeWCode. -/
def writeWCode (wCode : Nat) (wCodes : Mem) (idx : Nat) : Mem :=
  writeWBits_S wCode wCodes (4 * idx) (UINTW_MAX 4)

/-- StepCodeUtil::sumWCodes: SWAR sum of the sixteen 4-bit codes of one
word.  No addition in the chain can reach 2 ^ 64 (each step is bounded by
0x1e1e1e1e1e1e1e1e times small factors), so no reduction is needed. -/
def sumWCodes (w : Nat) : Nat :=
  let x1 := ((w &&& 0xf0f0f0f0f0f0f0f0) >>> 4) + (w &&& 0x0f0f0f0f0f0f0f0f)
  let x2 := x1 + (x1 >>> 8)
  let x3 := x2 + (x2 >>> 16)
  let x4 := x3 + (x3 >>> 32)
  x4 &&& 0xff

/-- StepCodeUtil::calcBitPos: beginning bit-pos of the idx-th value,
computed as 4 times (idx plus the sum of the first idx codes). -/
def calcBitPos (wCodes : Mem) (idx : Nat) : Nat :=
  let sum := (List.range (idx / 16)).foldl (fun acc i => acc + sumWCodes (wCodes i)) idx
  let rem := idx % 16
  let sum := if rem ≠ 0 then sum + sumWCodes (wCodes (idx / 16) &&& UINTW_MAX (rem * 4))
             else sum
  sum * 4

/-- The StepCode container state (StepCode and its StepCodeCore). -/
structure StepCode where
  wCodes : Mem
  vals : Mem
  bitSize : Nat
  size : Nat

/-- A fresh StepCode: zero-filled buffers, no elements. -/
def StepCode.empty : StepCode :=
  { wCodes := fun _ => 0, vals := fun _ => 0, bitSize := 0, size := 0 }

/-- StepCodeCore::read. -/
def StepCode.read (sc : StepCode) (idx : Nat) : Nat :=
  let bitPos := calcBitPos sc.wCodes idx
  let w := readW sc.wCodes idx
  readWBits sc.vals bitPos w (UINTW_MAX w)

/-- StepCodeCore::read_naive, modelled exactly as written: the for loop
declares a fresh local named bitPos each iteration (auto bitPos = readW(i))
which shadows the outer accumulator, so the outer bitPos stays 0; each
iteration computes readW(i) and discards it. -/
def StepCode.read_naive (sc : StepCode) (idx : Nat) : Nat :=
  let bitPos : Nat := (List.range idx).foldl (fun bp i =>
    let bitPosInner := readW sc.wCodes i
    bp) 0
  let w := readW sc.wCodes idx
  readWBits sc.vals bitPos w (UINTW_MAX w)

/-- StepCode::append (the one-argument form, which computes the stepped
width itself and forwards to the two-argument form). -/
def StepCode.append (sc : StepCode) (val : Nat) : StepCode :=
  let steppedW := calcSteppedW val
  let wCode := steppedW / 4 - 1
  { wCodes := writeWCode wCode sc.wCodes sc.size,
    vals := writeWBits val sc.vals sc.bitSize steppedW (UINTW_MAX steppedW),
    bitSize := sc.bitSize + steppedW,
    size := sc.size + 1 }

/-- Appending a whole list of values in order. -/
def StepCode.appendList (sc : StepCode) (vs : List Nat) : StepCode :=
  vs.foldl StepCode.append sc

end itmmti

namespace itmmti

/-- C10, code bug: read and read_naive disagree.  read_naive's loop variable
shadows its accumulator (auto bitPos = readW(i) declares a new local), so
read_naive always reads at bit position 0.  On the appended sequence [1, 2],
element 1 is the value 2 stored at bit position 4, but read_naive(1) returns
1 (the 4 low bits of the payload).  Evaluation of both paths at this
failing input: -/
theorem C10_read_naive_bug :
    (StepCode.empty.appendList [1, 2]).read 1 = 2 ∧
    (StepCode.empty.appendList [1, 2]).read_naive 1 = 1 := by
  constructor
  · decide
  · decide

end itmmti

namespace itmmti

/-! RankVec (RankVec.hpp), parameterized by the top and middle block sizes
BSIZE_T and BSIZE_M (called T and M below).  blockT_ is an array of SizeT
(uint64) counters, blockM_ an array of uint16 counters; both are modelled
as total maps with fresh memory zero-filled, and their compound additions
reduce modulo the respective word sizes exactly as the C++ integers do. -/

structure RankVec where
  words : Mem
  size : Nat
  blockT : Nat → Nat
  blockM : Nat → Nat

/-- A fresh RankVec. -/
def RankVec.empty : RankVec :=
  { words := fun _ => 0, size := 0, blockT := fun _ => 0, blockM := fun _ => 0 }

/-- Wrapping subtraction on uint64 values. -/
def sub64 (a b : Nat) : Nat := (a % U64 + U64 - b % U64) % U64

/-- Bool to the 0 or 1 the C++ code adds. -/
def b01 (b : Bool) : Nat := if b then 1 else 0

/-- RankVec::appendBit.  The two seeding stores of the source (executed
when the append position sits on a middle-block boundary) are written here
as conditional updates with the nested if conditions flattened into
conjunctions; the counter increments then read the seeded arrays, exactly
as the sequential C++ mutations do. -/
def RankVec.appendBit (T M : Nat) (rv : RankVec) (b : Bool) : RankVec :=
  let pos := rv.size
  let words := writeWBits_S (b01 b) rv.words pos (UINTW_MAX 1)
  if pos = 0 then
    { words := words, size := 1,
      blockT := mset rv.blockT 0 (b01 b), blockM := mset rv.blockM 0 (b01 b) }
  else
    let idxT := pos / T
    let remT := pos % T
    let idxM := pos / M - idxT
    let bT0 := if pos % M = 0 ∧ remT = 0 then mset rv.blockT idxT (rv.blockT (idxT - 1))
               else rv.blockT
    let bM0 := if pos % M = 0 ∧ remT = 0 then mset rv.blockM idxM 0
               else if pos % M = 0 ∧ remT < T - M then
                 mset rv.blockM idxM (rv.blockM (idxM - 1))
               else rv.blockM
    let bT := mset bT0 idxT ((bT0 idxT + b01 b) % U64)
    let bM := if remT < T - M then mset bM0 idxM ((bM0 idxM + b01 b) % 2 ^ 16) else bM0
    { words := words, size := pos + 1, blockT := bT, blockM := bM }

/-- The bit store of appendBit: both branches write the new bit at
position size. -/
theorem RankVec.appendBit_words (T M : Nat) (rv : RankVec) (b : Bool) :
    (RankVec.appendBit T M rv b).words =
      writeWBits_S (b01 b) rv.words rv.size (UINTW_MAX 1) := by
  by_cases h0 : rv.size = 0 <;> simp [RankVec.appendBit, h0]

/-- appendBit increments size in both branches. -/
theorem RankVec.appendBit_size (T M : Nat) (rv : RankVec) (b : Bool) :
    (RankVec.appendBit T M rv b).size = rv.size + 1 := by
  by_cases h0 : rv.size = 0 <;> simp [RankVec.appendBit, h0]

/-- Top counters of appendBit in the non-empty case: optional seeding at a
top-block boundary, then the increment of the current counter. -/
theorem RankVec.appendBit_blockT_pos (T M : Nat) (rv : RankVec) (b : Bool)
    (h0 : ¬ rv.size = 0) :
    (RankVec.appendBit T M rv b).blockT =
      mset
        (if rv.size % M = 0 ∧ rv.size % T = 0 then
           mset rv.blockT (rv.size / T) (rv.blockT (rv.size / T - 1))
         else rv.blockT)
        (rv.size / T)
        (((if rv.size % M = 0 ∧ rv.size % T = 0 then
             mset rv.blockT (rv.size / T) (rv.blockT (rv.size / T - 1))
           else rv.blockT) (rv.size / T) + b01 b) % U64) := by
  simp [RankVec.appendBit, h0]

/-- Middle counters of appendBit in the non-empty case: optional seeding at
a middle-block boundary, then the increment when the position is not in
the elided last middle block of its top block. -/
theorem RankVec.appendBit_blockM_pos (T M : Nat) (rv : RankVec) (b : Bool)
    (h0 : ¬ rv.size = 0) :
    (RankVec.appendBit T M rv b).blockM =
      if rv.size % T < T - M then
        mset
          (if rv.size % M = 0 ∧ rv.size % T = 0 then
             mset rv.blockM (rv.size / M - rv.size / T) 0
           else if rv.size % M = 0 ∧ rv.size % T < T - M then
             mset rv.blockM (rv.size / M - rv.size / T)
               (rv.blockM (rv.size / M - rv.size / T - 1))
           else rv.blockM)
          (rv.size / M - rv.size / T)
          (((if rv.size % M = 0 ∧ rv.size % T = 0 then
               mset rv.blockM (rv.size / M - rv.size / T) 0
             else if rv.size % M = 0 ∧ rv.size % T < T - M then
               mset rv.blockM (rv.size / M - rv.size / T)
                 (rv.blockM (rv.size / M - rv.size / T - 1))
             else rv.blockM) (rv.size / M - rv.size / T) + b01 b) % 2 ^ 16)
      else
        if rv.size % M = 0 ∧ rv.size % T = 0 then
          mset rv.blockM (rv.size / M - rv.size / T) 0
        else if rv.size % M = 0 ∧ rv.size % T < T - M then
          mset rv.blockM (rv.size / M - rv.size / T)
            (rv.blockM (rv.size / M - rv.size / T - 1))
        else rv.blockM := by
  simp [RankVec.appendBit, h0]

/-- Append a list of bits in order (every append within capacity). -/
def RankVec.build (T M : Nat) (bs : List Bool) : RankVec :=
  bs.foldl (RankVec.appendBit T M) RankVec.empty

/-- RankVec::readBit (through BitVec::readBit, bits::readWBits_S). -/
def RankVec.readBit (rv : RankVec) (bitPos : Nat) : Nat :=
  readWBits_S rv.words bitPos (UINTW_MAX 1)

/-- RankVec::getNum_1. -/
def RankVec.getNum_1 (T : Nat) (rv : RankVec) : Nat :=
  if rv.size ≠ 0 then rv.blockT ((rv.size - 1) / T) else 0

/-- RankVec::getNum_0. -/
def RankVec.getNum_0 (T : Nat) (rv : RankVec) : Nat :=
  sub64 rv.size (rv.getNum_1 T)

/-- RankVec::rank_1. -/
def RankVec.rank_1 (T M : Nat) (rv : RankVec) (pos : Nat) : Nat :=
  let idxT := pos / T
  let remT := pos % T
  let idxM := pos / M - idxT
  let rank := if idxT ≠ 0 then rv.blockT (idxT - 1) else 0
  let rank := if remT ≥ M then (rank + rv.blockM (idxM - 1)) % U64 else rank
  (rank + cnt_1 rv.words (pos / M * M / 64) (pos % M)) % U64

/-- RankVec::rank_0 (its own complement-count path). -/
def RankVec.rank_0 (T M : Nat) (rv : RankVec) (pos : Nat) : Nat :=
  let idxT := pos / T
  let remT := pos % T
  let idxM := pos / M - idxT
  let rank := if idxT ≠ 0 then sub64 (idxT * T) (rv.blockT (idxT - 1)) else 0
  let rank := if remT ≥ M then (rank + sub64 (remT / M * M) (rv.blockM (idxM - 1))) % U64
              else rank
  (rank + cnt_0 rv.words (pos / M * M / 64) (pos % M)) % U64

end itmmti

namespace itmmti

theorem onesIn_le (m : Mem) (a len : Nat) : onesIn m a len ≤ len := by
  simpa [onesIn] using (List.countP_le_length (l := List.range len)
    (p := fun k => bitAt m (a + k)))

theorem onesIn_one (m : Mem) (a : Nat) : onesIn m a 1 = b01 (bitAt m a) := by
  simp [onesIn, List.range_succ, b01]
  by_cases h : bitAt m a <;> simp [h, List.countP, List.countP.go]

theorem onesIn_zero (m : Mem) (a : Nat) : onesIn m a 0 = 0 := by
  simp [onesIn]

/-- Splitting off the last bit of a region. -/
theorem onesIn_succ (m : Mem) (a len : Nat) :
    onesIn m a (len + 1) = onesIn m a len + b01 (bitAt m (a + len)) := by
  rw [onesIn_split m a len 1, onesIn_one]

/-- Effect of BitVec::writeBit on the bit stream. -/
theorem writeBit_bitAt {m : Mem} (hm : WFmem m) (b : Bool) (n q : Nat) :
    bitAt (writeWBits_S (b01 b) m n (UINTW_MAX 1)) q =
      if q = n then b else bitAt m q := by
  rw [writeWBits_S_eq (b01 b) n (w := 1) (by omega)]
  rw [writeWBits_bitAt hm n (by omega) (by cases b <;> simp [b01]) q]
  by_cases h : q = n
  · subst h
    simp
    cases b <;> simp [b01]
  · have h2 : ¬ (n ≤ q ∧ q < n + 1) := by omega
    simp [h, h2]

theorem writeBit_WF {m : Mem} (hm : WFmem m) (b : Bool) (n : Nat) :
    WFmem (writeWBits_S (b01 b) m n (UINTW_MAX 1)) := by
  rw [writeWBits_S_eq (b01 b) n (w := 1) (by omega)]
  exact writeWBits_WF hm _ _ _ _ (by cases b <;> simp [b01, U64] <;> norm_num)

end itmmti

namespace itmmti

/-- The consistency invariant of RankVec at the reference template
parameters BSIZE_T = 4096 and BSIZE_M = 256 (the defaults, and the only
instantiation used in the repository): the container holds exactly the bits
of bs (with zero-filled fresh memory beyond), every top counter holds the
prefix popcount clipped at the current size, and every stored middle
counter (15 slots per top block, the redundant last one elided) holds the
popcount from its top-block start to its middle boundary, clipped at the
current size. -/
def RVinv (bs : List Bool) (rv : RankVec) : Prop :=
  rv.size = bs.length ∧
  WFmem rv.words ∧
  (∀ q, q < bs.length → bitAt rv.words q = bs.getD q false) ∧
  (∀ q, bs.length ≤ q → bitAt rv.words q = false) ∧
  (∀ j, j * 4096 < bs.length →
     rv.blockT j = onesIn rv.words 0 (min ((j + 1) * 4096) bs.length)) ∧
  (∀ i r, r < 15 → i * 4096 + r * 256 < bs.length →
     rv.blockM (i * 15 + r) =
       onesIn rv.words (i * 4096) (min ((r + 1) * 256) (bs.length - i * 4096)))

theorem RVinv_empty : RVinv [] RankVec.empty := by
  refine ⟨rfl, ?_, ?_, ?_, ?_, ?_⟩
  · intro i
    simp [RankVec.empty, U64]
  · intro q hq
    simp at hq
  · intro q _
    simp [RankVec.empty, bitAt]
  · intro j hj
    simp at hj
  · intro i r _ h
    simp at h


theorem RVinv_appendBit {bs : List Bool} {rv : RankVec} (b : Bool)
    (hn : bs.length < 2 ^ 58) (h : RVinv bs rv) :
    RVinv (bs ++ [b]) (RankVec.appendBit 4096 256 rv b) := by
  obtain ⟨hsz, hWF, hbits, hzero, hT, hM⟩ := h
  have hWF' := writeBit_WF hWF b bs.length
  have hb' := writeBit_bitAt hWF b bs.length
  have hbit_new : bitAt (writeWBits_S (b01 b) rv.words bs.length (UINTW_MAX 1)) bs.length = b := by
    rw [hb']
    simp
  have hbit_old : ∀ q, q ≠ bs.length →
      bitAt (writeWBits_S (b01 b) rv.words bs.length (UINTW_MAX 1)) q = bitAt rv.words q := by
    intro q hq
    rw [hb', if_neg hq]
  have hones : ∀ a len, a + len ≤ bs.length →
      onesIn (writeWBits_S (b01 b) rv.words bs.length (UINTW_MAX 1)) a len =
        onesIn rv.words a len := by
    intro a len hle
    apply onesIn_congr
    intro j hj
    exact hbit_old (a + j) (by omega)
  have honesS : ∀ a len, a + len = bs.length →
      onesIn (writeWBits_S (b01 b) rv.words bs.length (UINTW_MAX 1)) a (len + 1) =
        onesIn rv.words a len + b01 b := by
    intro a len hae
    rw [onesIn_succ, hones a len (by omega), hae, hbit_new]
  have hlen : (bs ++ [b]).length = bs.length + 1 := by simp
  have hgetD_lt : ∀ q, q < bs.length → (bs ++ [b]).getD q false = bs.getD q false := by
    intro q hq
    simp only [List.getD_eq_getElem?_getD]
    rw [List.getElem?_append_left (by omega)]
  have hgetD_n : (bs ++ [b]).getD bs.length false = b := by
    simp only [List.getD_eq_getElem?_getD]
    rw [List.getElem?_append_right (by omega)]
    simp
  have hb01 : b01 b ≤ 1 := by cases b <;> simp [b01]
  have hU58 : (2 : Nat) ^ 58 < U64 := by norm_num [U64]
  by_cases h0 : bs.length = 0
  · -- first ever bit
    have hbs : bs = [] := List.eq_nil_of_length_eq_zero h0
    subst hbs
    have e0 : rv.size = 0 := by simp [hsz]
    have happ : RankVec.appendBit 4096 256 rv b =
        { words := writeWBits_S (b01 b) rv.words 0 (UINTW_MAX 1), size := 1,
          blockT := mset rv.blockT 0 (b01 b), blockM := mset rv.blockM 0 (b01 b) } := by
      simp [RankVec.appendBit, e0]
    rw [happ]
    have hbn : bitAt (writeWBits_S (b01 b) rv.words 0 (UINTW_MAX 1)) 0 = b := hbit_new
    have hbo : ∀ q, q ≠ 0 →
        bitAt (writeWBits_S (b01 b) rv.words 0 (UINTW_MAX 1)) q = bitAt rv.words q :=
      hbit_old
    refine ⟨rfl, hWF', ?_, ?_, ?_, ?_⟩
    · intro q hq
      have hq0 : q = 0 := by simp at hq; omega
      subst hq0
      simpa using hbn
    · intro q hq
      have hq0 : q ≠ 0 := by simp at hq; omega
      rw [hbo q hq0]
      exact hzero q (Nat.zero_le q)
    · intro j hj
      have hj0 : j = 0 := by simp at hj; omega
      subst hj0
      show mset rv.blockT 0 (b01 b) 0 = _
      rw [mset_same]
      have hmin : min ((0 + 1) * 4096) (([] : List Bool) ++ [b]).length = 1 := by simp
      rw [hmin, onesIn_one, hbn]
    · intro i r hr hcond
      have hir : i = 0 ∧ r = 0 := by simp at hcond; omega
      obtain ⟨hi0, hr0⟩ := hir
      subst hi0
      subst hr0
      show mset rv.blockM 0 (b01 b) 0 = _
      rw [mset_same]
      have hmin : min ((0 + 1) * 256) ((([] : List Bool) ++ [b]).length - 0 * 4096) = 1 := by
        simp
      rw [hmin, onesIn_one, Nat.zero_mul, hbn]
  · -- general append at position bs.length > 0
    have hne : ¬ rv.size = 0 := by
      rw [hsz]
      exact h0
    have hw := RankVec.appendBit_words 4096 256 rv b
    rw [hsz] at hw
    have hsz2 := RankVec.appendBit_size 4096 256 rv b
    rw [hsz] at hsz2
    have hbT := RankVec.appendBit_blockT_pos 4096 256 rv b hne
    rw [hsz] at hbT
    have hbM := RankVec.appendBit_blockM_pos 4096 256 rv b hne
    rw [hsz] at hbM
    refine ⟨?_, ?_, ?_, ?_, ?_, ?_⟩
    · rw [hsz2, hlen]
    · rw [hw]
      exact hWF'
    · intro q hq
      rw [hw]
      rw [hlen] at hq
      by_cases hqn : q = bs.length
      · subst hqn
        rw [hgetD_n]
        exact hbit_new
      · rw [hgetD_lt q (by omega), hbit_old q hqn]
        exact hbits q (by omega)
    · intro q hq
      rw [hw]
      rw [hlen] at hq
      rw [hbit_old q (by omega)]
      exact hzero q (by omega)
    · -- top counters
      intro j hj
      rw [hbT, hw]
      rw [hlen] at hj
      clear hw hbT hbM hsz2 hb' hbit_old hbits hzero hgetD_lt hgetD_n hsz hWF hWF' hne
      have e1 := Nat.div_add_mod bs.length 4096
      have e2 := Nat.div_add_mod bs.length 256
      have e5 : bs.length % 4096 < 4096 := Nat.mod_lt _ (by norm_num)
      have e6 : bs.length % 256 < 256 := Nat.mod_lt _ (by norm_num)
      obtain ⟨qT, hg1⟩ : ∃ x, bs.length / 4096 = x := ⟨_, rfl⟩
      obtain ⟨qM, hg3⟩ : ∃ x, bs.length / 256 = x := ⟨_, rfl⟩
      obtain ⟨rT, hg2⟩ : ∃ x, bs.length % 4096 = x := ⟨_, rfl⟩
      obtain ⟨r256, hg5⟩ : ∃ x, bs.length % 256 = x := ⟨_, rfl⟩
      rw [hg1] at e1 ⊢
      rw [hg3] at e2
      rw [hg2] at e1 e5 ⊢
      rw [hg5] at e2 e6 ⊢
      clear hg1 hg2 hg3 hg5
      by_cases hjT : j = qT
      · subst hjT
        rw [mset_same]
        have hmin : min ((j + 1) * 4096) ((bs ++ [b]).length) = bs.length + 1 := by
          rw [hlen]
          omega
        rw [hmin]
        have hcnt := honesS 0 bs.length (by omega)
        have hbound : onesIn rv.words 0 bs.length ≤ bs.length := onesIn_le _ _ _
        by_cases hTb : r256 = 0 ∧ rT = 0
        · -- fresh top block, seeded from the previous one
          rw [if_pos hTb, mset_same]
          have hTprev := hT (j - 1) (by omega)
          have hminp : min ((j - 1 + 1) * 4096) bs.length = bs.length := by omega
          rw [hminp] at hTprev
          rw [hTprev, hcnt,
            Nat.mod_eq_of_lt (show onesIn rv.words 0 bs.length + b01 b < U64 by omega)]
        · -- existing top counter incremented
          rw [if_neg hTb]
          have hTcur := hT j (by omega)
          have hminc : min ((j + 1) * 4096) bs.length = bs.length := by omega
          rw [hminc] at hTcur
          rw [hTcur, hcnt,
            Nat.mod_eq_of_lt (show onesIn rv.words 0 bs.length + b01 b < U64 by omega)]
      · -- untouched top counters
        rw [mset_other _ _ _ _ hjT]
        have hmin1 : min ((j + 1) * 4096) ((bs ++ [b]).length) = (j + 1) * 4096 := by
          rw [hlen]
          omega
        have hmin2 : min ((j + 1) * 4096) bs.length = (j + 1) * 4096 := by omega
        rw [hmin1]
        have hold := hT j (by omega)
        rw [hmin2] at hold
        have hseedT : (if r256 = 0 ∧ rT = 0 then
            mset rv.blockT qT (rv.blockT (qT - 1))
          else rv.blockT) j = rv.blockT j := by
          by_cases hTb : r256 = 0 ∧ rT = 0
          · rw [if_pos hTb]
            exact mset_other _ _ _ _ hjT
          · rw [if_neg hTb]
        rw [hseedT, hold]
        exact (hones 0 ((j + 1) * 4096) (by omega)).symm
    · -- middle counters
      intro i r hr hcond
      rw [hbM, hw]
      rw [hlen] at hcond
      clear hw hbT hbM hsz2 hb' hbit_old hbits hzero hgetD_lt hgetD_n hsz hWF hWF' hne
      have e1 := Nat.div_add_mod bs.length 4096
      have e2 := Nat.div_add_mod bs.length 256
      have e3 := Nat.div_add_mod (bs.length % 4096) 256
      have e4 : bs.length % 4096 % 256 = bs.length % 256 := Nat.mod_mod_of_dvd _ (by norm_num)
      rw [e4] at e3
      clear e4
      have e5 : bs.length % 4096 < 4096 := Nat.mod_lt _ (by norm_num)
      have e6 : bs.length % 256 < 256 := Nat.mod_lt _ (by norm_num)
      obtain ⟨qT, hg1⟩ : ∃ x, bs.length / 4096 = x := ⟨_, rfl⟩
      obtain ⟨qM, hg3⟩ : ∃ x, bs.length / 256 = x := ⟨_, rfl⟩
      obtain ⟨rT, hg2⟩ : ∃ x, bs.length % 4096 = x := ⟨_, rfl⟩
      rw [hg1] at e1 ⊢
      rw [hg3] at e2 ⊢
      rw [hg2] at e1 e3 e5 ⊢
      obtain ⟨rS, hg4⟩ : ∃ x, rT / 256 = x := ⟨_, rfl⟩
      rw [hg4] at e3
      obtain ⟨r256, hg5⟩ : ∃ x, bs.length % 256 = x := ⟨_, rfl⟩
      rw [hg5] at e2 e3 e6 ⊢
      clear hg1 hg2 hg3 hg4 hg5
      by_cases hup : i = qT ∧ r = rS ∧ rT < 4096 - 256
      · -- the updated middle counter
        obtain ⟨hi, hrr, hlt3840⟩ := hup
        have hidx : i * 15 + r = qM - qT := by omega
        rw [if_pos hlt3840, hidx, mset_same]
        by_cases hTb : r256 = 0 ∧ rT = 0
        · -- T boundary: the fresh middle counter was seeded with 0
          rw [if_pos hTb, mset_same]
          have hia : i * 4096 = bs.length := by omega
          have hminc : min ((r + 1) * 256) ((bs ++ [b]).length - i * 4096) = 1 := by
            rw [hlen]
            omega
          rw [hminc, hia, onesIn_one, hbit_new]
          omega
        · by_cases hMb : r256 = 0 ∧ rT < 4096 - 256
          · -- M boundary inside a top block: seeded from the previous slot
            rw [if_neg hTb, if_pos hMb, mset_same]
            have hidxp : qM - qT - 1 = i * 15 + (r - 1) := by omega
            rw [hidxp]
            have hprev := hM i (r - 1) (by omega) (by omega)
            have hminp : min ((r - 1 + 1) * 256) (bs.length - i * 4096) =
                bs.length - i * 4096 := by omega
            rw [hminp] at hprev
            have hminc : min ((r + 1) * 256) ((bs ++ [b]).length - i * 4096) =
                bs.length + 1 - i * 4096 := by
              rw [hlen]
              omega
            rw [hminc, hprev]
            have hs := honesS (i * 4096) (bs.length - i * 4096) (by omega)
            rw [show bs.length - i * 4096 + 1 = bs.length + 1 - i * 4096 by omega] at hs
            rw [hs]
            have hb1 : onesIn rv.words (i * 4096) (bs.length - i * 4096) ≤
                bs.length - i * 4096 := onesIn_le _ _ _
            omega
          · -- plain position: increment only
            rw [if_neg hTb, if_neg hMb]
            have hcur := hM i r (by omega) (by omega)
            rw [hidx] at hcur
            have hminp : min ((r + 1) * 256) (bs.length - i * 4096) =
                bs.length - i * 4096 := by omega
            rw [hminp] at hcur
            have hminc : min ((r + 1) * 256) ((bs ++ [b]).length - i * 4096) =
                bs.length + 1 - i * 4096 := by
              rw [hlen]
              omega
            rw [hminc, hcur]
            have hs := honesS (i * 4096) (bs.length - i * 4096) (by omega)
            rw [show bs.length - i * 4096 + 1 = bs.length + 1 - i * 4096 by omega] at hs
            rw [hs]
            have hb1 : onesIn rv.words (i * 4096) (bs.length - i * 4096) ≤
                bs.length - i * 4096 := onesIn_le _ _ _
            omega
      · -- untouched middle counters
        have hcond' : i * 4096 + r * 256 < bs.length := by omega
        have hold := hM i r hr hcond'
        have hmins : min ((r + 1) * 256) ((bs ++ [b]).length - i * 4096) =
            min ((r + 1) * 256) (bs.length - i * 4096) := by
          rw [hlen]
          omega
        rw [hmins]
        rw [← hones (i * 4096) (min ((r + 1) * 256) (bs.length - i * 4096)) (by omega)] at hold
        rw [← hold]
        have hMold : (if r256 = 0 ∧ rT = 0 then
              mset rv.blockM (qM - qT) 0
            else if r256 = 0 ∧ rT < 4096 - 256 then
              mset rv.blockM (qM - qT) (rv.blockM (qM - qT - 1))
            else rv.blockM) (i * 15 + r) = rv.blockM (i * 15 + r) := by
          have hne2 : ¬ (rT < 4096 - 256) ∨ i * 15 + r ≠ qM - qT := by
            by_cases hq : rT < 4096 - 256
            · right
              intro hc
              exact hup ⟨by omega, by omega, hq⟩
            · left
              exact hq
          by_cases hTb : r256 = 0 ∧ rT = 0
          · rw [if_pos hTb]
            refine mset_other _ _ _ _ ?_
            rcases hne2 with hq | hq
            · exact absurd (by omega : rT < 4096 - 256) hq
            · exact hq
          · rw [if_neg hTb]
            by_cases hMb : r256 = 0 ∧ rT < 4096 - 256
            · rw [if_pos hMb]
              refine mset_other _ _ _ _ ?_
              rcases hne2 with hq | hq
              · exact absurd hMb.2 hq
              · exact hq
            · rw [if_neg hMb]
        by_cases hlt : rT < 4096 - 256
        · rw [if_pos hlt]
          have hne3 : i * 15 + r ≠ qM - qT := by
            intro hc
            exact hup ⟨by omega, by omega, hlt⟩
          rw [mset_other _ _ _ _ hne3, hMold]
        · rw [if_neg hlt, hMold]
end itmmti
